import Mathlib

/-!
Verification of the `graph-utils` core of the osm-graph-export extension.

The JavaScript source (`lib/graph-utils.js` and the background orchestrator)
is shallowly embedded below:

* JS numbers that hold coordinates/spans are modelled as exact rationals `ℚ`;
* JS `Map` objects are modelled as lists in insertion order with the
  overwrite-in-place semantics of `Map.set`;
* JS template strings such as `` `${type}-${id}` `` are modelled with an
  explicit decimal renderer (`natStr` / `intStr`) whose injectivity is proved
  here, so that the deduplication keys built from them can be reasoned about;
* the floating-point Haversine distance (`calculateDistance`) is modelled as
  the free term recording its four arguments: every claim below uses only the
  fact that it is a pure function of the two endpoints' coordinates.

Definitions are named after their JS sources.  Spec-side characterisations
(used to state the claims) are prefixed with `spec` or given descriptive
names, and are compared with the translated code by theorems.
-/

/-! ## Generic first-occurrence deduplication

The JS code deduplicates with a `Set` of string keys while pushing to an
output array.  `dedupFirstByAux` is that loop shape: `seen` is the set of
keys already emitted. -/

def dedupFirstByAux {α κ : Type} [DecidableEq κ] (k : α → κ) (seen : List κ) : List α → List α
  | [] => []
  | a :: rest =>
    if k a ∈ seen then dedupFirstByAux k seen rest
    else a :: dedupFirstByAux k (k a :: seen) rest

/-- Keep the first occurrence of each key, dropping later duplicates. -/
def dedupFirstBy {α κ : Type} [DecidableEq κ] (k : α → κ) (l : List α) : List α :=
  dedupFirstByAux k [] l

theorem dedupFirstByAux_congr {α κ κ2 : Type} [DecidableEq κ] [DecidableEq κ2]
    (k : α → κ) (k2 : α → κ2) (hk : ∀ a b, k a = k b ↔ k2 a = k2 b)
    (l : List α) (pre : List α) :
    dedupFirstByAux k (pre.map k) l = dedupFirstByAux k2 (pre.map k2) l := by
  induction l generalizing pre with
  | nil => rfl
  | cons a rest ih =>
    have hmem : (k a ∈ pre.map k) = (k2 a ∈ pre.map k2) := by
      simp only [List.mem_map]
      exact propext ⟨fun ⟨b, hb, he⟩ => ⟨b, hb, (hk b a).mp he⟩,
                     fun ⟨b, hb, he⟩ => ⟨b, hb, (hk b a).mpr he⟩⟩
    simp only [dedupFirstByAux, hmem]
    by_cases h : k2 a ∈ pre.map k2
    · simp only [h, if_true]
      exact ih pre
    · simp only [h, if_false]
      have := ih (a :: pre)
      simp only [List.map_cons] at this
      rw [this]

theorem dedupFirstBy_congr {α κ κ2 : Type} [DecidableEq κ] [DecidableEq κ2]
    (k : α → κ) (k2 : α → κ2) (hk : ∀ a b, k a = k b ↔ k2 a = k2 b) (l : List α) :
    dedupFirstBy k l = dedupFirstBy k2 l :=
  dedupFirstByAux_congr k k2 hk l []

/-- Keys recorded after running the dedup loop over `l` starting from `seen`. -/
def seenAfter {α κ : Type} [DecidableEq κ] (k : α → κ) (seen : List κ) : List α → List κ
  | [] => seen
  | a :: rest => seenAfter k (if k a ∈ seen then seen else k a :: seen) rest

theorem mem_seenAfter {α κ : Type} [DecidableEq κ] (k : α → κ) (seen : List κ) (l : List α)
    (x : κ) : x ∈ seenAfter k seen l ↔ x ∈ seen ∨ ∃ a ∈ l, k a = x := by
  induction l generalizing seen with
  | nil => simp [seenAfter]
  | cons a rest ih =>
    simp only [seenAfter]
    by_cases h : k a ∈ seen
    · rw [if_pos h, ih seen]
      constructor
      · rintro (hx | ⟨b, hb, hbx⟩)
        · exact Or.inl hx
        · exact Or.inr ⟨b, List.mem_cons_of_mem a hb, hbx⟩
      · rintro (hx | ⟨b, hb, hbx⟩)
        · exact Or.inl hx
        · rcases List.mem_cons.mp hb with rfl | hb2
          · subst hbx
            exact Or.inl h
          · exact Or.inr ⟨b, hb2, hbx⟩
    · rw [if_neg h, ih (k a :: seen)]
      constructor
      · rintro (hx | ⟨b, hb, hbx⟩)
        · rcases List.mem_cons.mp hx with rfl | hx2
          · exact Or.inr ⟨a, List.mem_cons_self a rest, rfl⟩
          · exact Or.inl hx2
        · exact Or.inr ⟨b, List.mem_cons_of_mem a hb, hbx⟩
      · rintro (hx | ⟨b, hb, hbx⟩)
        · exact Or.inl (List.mem_cons_of_mem _ hx)
        · rcases List.mem_cons.mp hb with rfl | hb2
          · subst hbx
            exact Or.inl (List.mem_cons_self _ _)
          · exact Or.inr ⟨b, hb2, hbx⟩

theorem dedupFirstByAux_append {α κ : Type} [DecidableEq κ] (k : α → κ) (seen : List κ)
    (l1 l2 : List α) :
    dedupFirstByAux k seen (l1 ++ l2) =
      dedupFirstByAux k seen l1 ++ dedupFirstByAux k (seenAfter k seen l1) l2 := by
  induction l1 generalizing seen with
  | nil => simp [dedupFirstByAux, seenAfter]
  | cons a rest ih =>
    simp only [List.cons_append, dedupFirstByAux, seenAfter]
    by_cases h : k a ∈ seen
    · simp only [h, if_true]
      exact ih seen
    · simp only [h, if_false, List.cons_append, List.append_eq]
      rw [ih (k a :: seen)]

/-! ## Decimal rendering of numeric identifiers

JS template strings render ids in decimal.  `natStr`/`intStr` model that
rendering; their injectivity lets us reason about string dedup keys. -/

/-- Little-endian decimal digits of `n`. -/
def natDigitsRev (n : Nat) : List Nat :=
  if h : n < 10 then [n] else n % 10 :: natDigitsRev (n / 10)
termination_by n
decreasing_by
  exact Nat.div_lt_self (by omega) (by omega)

/-- Value of a little-endian digit list. -/
def valDigits : List Nat → Nat
  | [] => 0
  | d :: ds => d + 10 * valDigits ds

theorem valDigits_natDigitsRev (n : Nat) : valDigits (natDigitsRev n) = n := by
  induction n using Nat.strong_induction_on with
  | _ n ih =>
    rw [natDigitsRev]
    by_cases h : n < 10
    · simp [h, valDigits]
    · rw [dif_neg h]
      have hdiv : n / 10 < n := Nat.div_lt_self (by omega) (by omega)
      simp only [valDigits, ih (n / 10) hdiv]
      omega

theorem natDigitsRev_injective (m n : Nat) (h : natDigitsRev m = natDigitsRev n) : m = n := by
  have h2 := valDigits_natDigitsRev m
  rw [h, valDigits_natDigitsRev] at h2
  exact h2.symm

theorem natDigitsRev_lt (n : Nat) : ∀ d ∈ natDigitsRev n, d < 10 := by
  induction n using Nat.strong_induction_on with
  | _ n ih =>
    rw [natDigitsRev]
    by_cases h : n < 10
    · simp [h]
    · rw [dif_neg h]
      intro d hd
      rcases List.mem_cons.mp hd with rfl | hd2
      · omega
      · exact ih (n / 10) (Nat.div_lt_self (by omega) (by omega)) d hd2

theorem natDigitsRev_ne_nil (n : Nat) : natDigitsRev n ≠ [] := by
  rw [natDigitsRev]
  by_cases h : n < 10 <;> simp [h]

theorem digitChar_inj : ∀ d1 < 10, ∀ d2 < 10, Nat.digitChar d1 = Nat.digitChar d2 → d1 = d2 := by
  decide

theorem map_digitChar_inj : ∀ (l1 l2 : List Nat), (∀ d ∈ l1, d < 10) → (∀ d ∈ l2, d < 10) →
    l1.map Nat.digitChar = l2.map Nat.digitChar → l1 = l2
  | [], [], _, _, _ => rfl
  | [], _ :: _, _, _, h => by simp at h
  | _ :: _, [], _, _, h => by simp at h
  | a :: as, b :: bs, h1, h2, h => by
    simp only [List.map_cons, List.cons.injEq] at h
    have hab := digitChar_inj a (h1 a (List.mem_cons_self a as)) b
      (h2 b (List.mem_cons_self b bs)) h.1
    have htail := map_digitChar_inj as bs (fun d hd => h1 d (List.mem_cons_of_mem a hd))
      (fun d hd => h2 d (List.mem_cons_of_mem b hd)) h.2
    rw [hab, htail]

/-- Decimal rendering of a natural number, as a JS template string does. -/
def natStr (n : Nat) : String :=
  String.mk ((natDigitsRev n).reverse.map Nat.digitChar)

theorem natStr_injective (m n : Nat) (h : natStr m = natStr n) : m = n := by
  have hdata : ((natDigitsRev m).reverse.map Nat.digitChar)
      = ((natDigitsRev n).reverse.map Nat.digitChar) := by
    injection h
  have hrev : (natDigitsRev m).reverse = (natDigitsRev n).reverse :=
    map_digitChar_inj _ _
      (fun d hd => natDigitsRev_lt m d (List.mem_reverse.mp hd))
      (fun d hd => natDigitsRev_lt n d (List.mem_reverse.mp hd)) hdata
  exact natDigitsRev_injective m n (List.reverse_injective hrev)

theorem digitChar_ne_dash : ∀ d < 10, Nat.digitChar d ≠ '-' := by decide

theorem natStr_data_digits (n : Nat) :
    ∀ c ∈ (natStr n).data, c ≠ '-' := by
  intro c hc
  simp only [natStr, String.mk, List.mem_map] at hc
  obtain ⟨d, hd, rfl⟩ := hc
  exact digitChar_ne_dash d (natDigitsRev_lt n d (List.mem_reverse.mp hd))

theorem natStr_ne_nil (n : Nat) : (natStr n).data ≠ [] := by
  simp only [natStr, String.mk]
  intro h
  have h2 := List.map_eq_nil_iff.mp h
  exact natDigitsRev_ne_nil n (List.reverse_eq_nil_iff.mp h2)

/-- Decimal rendering of an integer, as a JS template string does. -/
def intStr : Int → String
  | .ofNat n => natStr n
  | .negSucc n => "-" ++ natStr (n + 1)

theorem intStr_injective (i j : Int) (h : intStr i = intStr j) : i = j := by
  cases i with
  | ofNat m =>
    cases j with
    | ofNat n =>
      rw [natStr_injective m n h]
    | negSucc n =>
      exfalso
      simp only [intStr] at h
      have hdata := congrArg String.data h
      rw [String.data_append] at hdata
      have hdash : "-".data = ['-'] := rfl
      rw [hdash] at hdata
      have hmem : '-' ∈ (natStr m).data := by
        rw [hdata]
        exact List.mem_cons_self _ _
      exact natStr_data_digits m '-' hmem rfl
  | negSucc m =>
    cases j with
    | ofNat n =>
      exfalso
      simp only [intStr] at h
      have hdata := congrArg String.data h.symm
      rw [String.data_append] at hdata
      have hdash : "-".data = ['-'] := rfl
      rw [hdash] at hdata
      have hmem : '-' ∈ (natStr n).data := by
        rw [hdata]
        exact List.mem_cons_self _ _
      exact natStr_data_digits n '-' hmem rfl
    | negSucc n =>
      simp only [intStr] at h
      have hdata := congrArg String.data h
      rw [String.data_append, String.data_append] at hdata
      have htail : (natStr (m + 1)).data = (natStr (n + 1)).data :=
        List.append_cancel_left hdata
      have hstr : natStr (m + 1) = natStr (n + 1) := String.ext htail
      have hmn := natStr_injective _ _ hstr
      have : m = n := by omega
      rw [this]

/-! ## Data model

`RawElement` is the tagged union of Overpass elements the code consumes
(§ the spec data model): nodes carry coordinates, ways carry an optional
ordered node-reference list and an optional tag map.  Of the tag map the
code reads only `highway`, `name` and `oneway`, so the embedding records
exactly those three optional entries. -/

structure Tags where
  highway : Option String
  name : Option String
  oneway : Option String
deriving DecidableEq

inductive RawElement : Type
  | node (id : Int) (lat lon : ℚ)
  | way (id : Int) (nodes : Option (List Int)) (tags : Option Tags)
deriving DecidableEq

structure GraphNode where
  id : Int
  lat : ℚ
  lon : ℚ
deriving DecidableEq

/-- The result of `calculateDistance` (floating-point Haversine, Earth radius
6371 km).  Modelled as the free term recording the four arguments: the
claims below depend only on `calculateDistance` being a pure function of the
endpoints' coordinates, never on the numeric value. -/
structure Weight where
  lat1 : ℚ
  lon1 : ℚ
  lat2 : ℚ
  lon2 : ℚ
deriving DecidableEq

/-- `calculateDistance(lat1, lon1, lat2, lon2)` from the source. -/
def calculateDistance (lat1 lon1 lat2 lon2 : ℚ) : Weight :=
  ⟨lat1, lon1, lat2, lon2⟩

structure GraphEdge where
  source : Int
  target : Int
  wayId : Int
  weight : Weight
  highway : String
  name : String
deriving DecidableEq

/-- The node-link graph object.  `graph` is the reserved metadata object,
always `{}` in the source, modelled as an association list. -/
structure Graph where
  directed : Bool
  multigraph : Bool
  graph : List (String × String)
  nodes : List GraphNode
  edges : List GraphEdge
deriving DecidableEq

/-! ## mergeOsmData -/

/-- One raw Overpass response as seen by `mergeOsmData`: null (or otherwise
falsy), an object without an `elements` array, or an object with one. -/
inductive RawResult : Type
  | null
  | noElements
  | withElements (elements : List RawElement)
deriving DecidableEq

structure MergedResult where
  elements : List RawElement
deriving DecidableEq

def typeStr : RawElement → String
  | .node _ _ _ => "node"
  | .way _ _ _ => "way"

def elemId : RawElement → Int
  | .node i _ _ => i
  | .way i _ _ => i

/-- The dedup key `` `${element.type}-${element.id}` `` from `mergeOsmData`. -/
def elementKey (e : RawElement) : String :=
  typeStr e ++ "-" ++ intStr (elemId e)

/-- The identity pair (type, id) named by the spec. -/
def pairKey (e : RawElement) : String × Int :=
  (typeStr e, elemId e)

/-- The `elements` lists contributed by one response: null responses and
responses without an `elements` array are skipped (`continue` in source). -/
def rawElements : RawResult → List RawElement
  | .null => []
  | .noElements => []
  | .withElements els => els

/-- Body of the inner loop of `mergeOsmData`: `acc` is the pair of the
`seen` key set and the output array. -/
def mergeStep (acc : List String × List RawElement) (e : RawElement) :
    List String × List RawElement :=
  if elementKey e ∈ acc.1 then acc else (elementKey e :: acc.1, acc.2 ++ [e])

/-- `mergeOsmData(results)`: both nested loops of the source, threading one
`seen` set and one output array. -/
def mergeOsmData (results : List RawResult) : MergedResult :=
  ⟨(results.foldl (fun acc r => (rawElements r).foldl mergeStep acc) ([], [])).2⟩

theorem elementKey_eq_iff (a b : RawElement) :
    elementKey a = elementKey b ↔ pairKey a = pairKey b := by
  have hsplit : ∀ (e : RawElement), (elementKey e).data
      = (typeStr e).data ++ "-".data ++ (intStr (elemId e)).data := by
    intro e
    simp [elementKey, String.data_append]
  constructor
  · intro h
    have hdata := congrArg String.data h
    rw [hsplit a, hsplit b] at hdata
    cases a with
    | node i la lo =>
      cases b with
      | node j lb lob =>
        simp only [typeStr, elemId] at hdata
        have hid : (intStr i).data = (intStr j).data := by
          rw [List.append_assoc, List.append_assoc] at hdata
          exact List.append_cancel_left (List.append_cancel_left hdata)
        have := intStr_injective i j (String.ext hid)
        simp [pairKey, typeStr, elemId, this]
      | way j ns tg =>
        exfalso
        simp only [typeStr, elemId, List.cons_append, List.nil_append] at hdata
        injection hdata with h1 _
        exact absurd h1 (by decide)
    | way i ns tg =>
      cases b with
      | node j lb lob =>
        exfalso
        simp only [typeStr, elemId, List.cons_append, List.nil_append] at hdata
        injection hdata with h1 _
        exact absurd h1 (by decide)
      | way j ns2 tg2 =>
        simp only [typeStr, elemId] at hdata
        have hid : (intStr i).data = (intStr j).data := by
          rw [List.append_assoc, List.append_assoc] at hdata
          exact List.append_cancel_left (List.append_cancel_left hdata)
        have := intStr_injective i j (String.ext hid)
        simp [pairKey, typeStr, elemId, this]
  · intro h
    cases a with
    | node i la lo =>
      cases b with
      | node j lb lob =>
        simp only [pairKey, typeStr, elemId, Prod.mk.injEq, true_and] at h
        simp [elementKey, typeStr, elemId, h]
      | way j ns tg =>
        exfalso
        simp only [pairKey, typeStr, elemId, Prod.mk.injEq] at h
        exact absurd h.1 (by decide)
    | way i ns tg =>
      cases b with
      | node j lb lob =>
        exfalso
        simp only [pairKey, typeStr, elemId, Prod.mk.injEq] at h
        exact absurd h.1 (by decide)
      | way j ns2 tg2 =>
        simp only [pairKey, typeStr, elemId, Prod.mk.injEq, true_and] at h
        simp [elementKey, typeStr, elemId, h]

theorem seenAfter_append {α κ : Type} [DecidableEq κ] (k : α → κ) (seen : List κ)
    (l1 l2 : List α) :
    seenAfter k seen (l1 ++ l2) = seenAfter k (seenAfter k seen l1) l2 := by
  induction l1 generalizing seen with
  | nil => rfl
  | cons a rest ih =>
    simp only [List.cons_append, seenAfter]
    exact ih _

theorem foldl_mergeStep (els : List RawElement) (seen : List String)
    (out : List RawElement) :
    els.foldl mergeStep (seen, out) =
      (seenAfter elementKey seen els, out ++ dedupFirstByAux elementKey seen els) := by
  induction els generalizing seen out with
  | nil => simp [dedupFirstByAux, seenAfter]
  | cons e rest ih =>
    simp only [List.foldl_cons, mergeStep, seenAfter, dedupFirstByAux]
    by_cases h : elementKey e ∈ seen
    · simp only [h, if_true]
      exact ih seen out
    · simp only [h, if_false]
      rw [ih (elementKey e :: seen) (out ++ [e])]
      simp

theorem foldl_merge_results (results : List RawResult) (seen : List String)
    (out : List RawElement) :
    results.foldl (fun acc r => (rawElements r).foldl mergeStep acc) (seen, out) =
      (seenAfter elementKey seen (results.flatMap rawElements),
       out ++ dedupFirstByAux elementKey seen (results.flatMap rawElements)) := by
  induction results generalizing seen out with
  | nil => simp [dedupFirstByAux, seenAfter]
  | cons r rest ih =>
    simp only [List.foldl_cons, List.flatMap_cons]
    rw [foldl_mergeStep, ih, seenAfter_append, dedupFirstByAux_append, List.append_assoc]

/-- C5: for every list of raw results, `mergeOsmData` returns the
concatenation of the inputs' `elements` lists with duplicates removed by
the identity pair (type, id), first occurrence winning; null inputs and
inputs without an `elements` array contribute nothing (they are skipped
without error), and since the key is the pair, two elements sharing an id
but differing in type are both kept. -/
theorem mergeOsmData_dedup_by_type_id (results : List RawResult) :
    (mergeOsmData results).elements = dedupFirstBy pairKey (results.flatMap rawElements) := by
  simp only [mergeOsmData]
  rw [foldl_merge_results]
  simp only [List.nil_append]
  exact dedupFirstBy_congr elementKey pairKey elementKey_eq_iff _

/-! ## convertToGraph -/

/-- `Map.set` on the node map: overwrite in place if the key is present,
otherwise append (JS `Map` preserves first-insertion order). -/
def mapSet : List GraphNode → GraphNode → List GraphNode
  | [], n => [n]
  | m :: rest, n => if m.id = n.id then n :: rest else m :: mapSet rest n

/-- `Map.get` on the node map. -/
def nodeGet (nodes : List GraphNode) (i : Int) : Option GraphNode :=
  nodes.find? (fun n => n.id == i)

/-- Pass 1 of `convertToGraph`: collect all `node` elements keyed by id. -/
def buildNodes (elements : List RawElement) : List GraphNode :=
  elements.foldl (fun acc e =>
    match e with
    | .node i la lo => mapSet acc ⟨i, la, lo⟩
    | .way _ _ _ => acc) []

/-- The consecutive index pairs `(nodes[i], nodes[i+1])` of the way loop. -/
def consecPairs : List Int → List (Int × Int)
  | a :: b :: rest => (a, b) :: consecPairs (b :: rest)
  | _ => []

/-- Body of the pass-2 loop of `convertToGraph` for one consecutive pair:
resolve both endpoints, then emit a forward edge unless `oneway === '-1'`
and a reverse edge unless `oneway` is `'yes'`, `'true'` or `'1'`; both
edges share the one computed weight and the way's attributes. -/
def segmentEdges (nodes : List GraphNode) (wayId : Int) (highway nm : String)
    (oneway : Option String) (a b : Int) : List GraphEdge :=
  match nodeGet nodes a, nodeGet nodes b with
  | some fromNode, some toNode =>
    let weight := calculateDistance fromNode.lat fromNode.lon toNode.lat toNode.lon
    (if oneway ≠ some "-1" then
      [{ source := fromNode.id, target := toNode.id, wayId := wayId, weight := weight,
         highway := highway, name := nm }]
     else []) ++
    (if oneway ≠ some "yes" ∧ oneway ≠ some "true" ∧ oneway ≠ some "1" then
      [{ source := toNode.id, target := fromNode.id, wayId := wayId, weight := weight,
         highway := highway, name := nm }]
     else [])
  | _, _ => []

/-- Pass 2 of `convertToGraph` for one element: ways with a node-reference
list contribute the edges of their consecutive pairs; everything else
contributes nothing. `tags` defaults to `{}` and `highway`/`name` to the
empty string, as in the source. -/
def wayEdges (nodes : List GraphNode) : RawElement → List GraphEdge
  | .node _ _ _ => []
  | .way _ none _ => []
  | .way i (some nodeIds) tags =>
    let t := tags.getD ⟨none, none, none⟩
    let highway := t.highway.getD ""
    let nm := t.name.getD ""
    let oneway := t.oneway
    (consecPairs nodeIds).flatMap (fun p => segmentEdges nodes i highway nm oneway p.1 p.2)

/-- The argument of `convertToGraph`: null (or otherwise falsy), an object
without an `elements` array, or an object with one. -/
inductive OsmData : Type
  | null
  | noElements
  | withElements (elements : List RawElement)
deriving DecidableEq

/-- `convertToGraph(osmData)` from the source. -/
def convertToGraph : OsmData → Graph
  | .null => ⟨true, false, [], [], []⟩
  | .noElements => ⟨true, false, [], [], []⟩
  | .withElements elements =>
    let nodes := buildNodes elements
    let edges := elements.flatMap (wayEdges nodes)
    ⟨true, false, [], nodes, edges⟩

/-- C6: `convertToGraph` on null input, on input without an `elements`
array, and on an empty `elements` array returns the empty graph
`{directed: true, multigraph: false, graph: {}, nodes: [], edges: []}`,
and every graph it returns has `directed = true`, `multigraph = false`,
`graph = {}`. -/
theorem convertToGraph_empty_and_flags :
    convertToGraph .null = ⟨true, false, [], [], []⟩ ∧
    convertToGraph .noElements = ⟨true, false, [], [], []⟩ ∧
    convertToGraph (.withElements []) = ⟨true, false, [], [], []⟩ ∧
    ∀ d : OsmData, (convertToGraph d).directed = true ∧
      (convertToGraph d).multigraph = false ∧ (convertToGraph d).graph = [] := by
  refine ⟨rfl, rfl, rfl, ?_⟩
  intro d
  cases d <;> exact ⟨rfl, rfl, rfl⟩

/-- C1: for every consecutive node pair of a way that resolves in the node
map, the emitted edges follow the one-way semantics: `oneway = "-1"` emits
exactly the one reverse edge, `oneway ∈ {"yes", "true", "1"}` emits exactly
the one forward edge, anything else (including an absent tag) emits both,
forward before reverse; all emitted edges carry the same `wayId`, `weight`,
`highway` and `name`. -/
theorem segmentEdges_oneway_semantics (nodes : List GraphNode) (wayId : Int)
    (hw nm : String) (ow : Option String) (a b : Int) (fa fb : GraphNode)
    (ha : nodeGet nodes a = some fa) (hb : nodeGet nodes b = some fb) :
    segmentEdges nodes wayId hw nm ow a b =
      if ow = some "-1" then
        [⟨fb.id, fa.id, wayId, calculateDistance fa.lat fa.lon fb.lat fb.lon, hw, nm⟩]
      else if ow = some "yes" ∨ ow = some "true" ∨ ow = some "1" then
        [⟨fa.id, fb.id, wayId, calculateDistance fa.lat fa.lon fb.lat fb.lon, hw, nm⟩]
      else
        [⟨fa.id, fb.id, wayId, calculateDistance fa.lat fa.lon fb.lat fb.lon, hw, nm⟩,
         ⟨fb.id, fa.id, wayId, calculateDistance fa.lat fa.lon fb.lat fb.lon, hw, nm⟩] := by
  simp only [segmentEdges, ha, hb]
  by_cases h1 : ow = some "-1"
  · simp [h1]
  · by_cases h2 : ow = some "yes"
    · simp [h1, h2]
    · by_cases h3 : ow = some "true"
      · simp [h1, h2, h3]
      · by_cases h4 : ow = some "1"
        · simp [h1, h2, h3, h4]
        · simp [h1, h2, h3, h4]

/-- Concrete instance of `segmentEdges_oneway_semantics`: a resolved pair of
a plain two-node way emits both directions, `oneway = "yes"` only the
forward edge, `oneway = "-1"` only the reverse edge. -/
theorem segmentEdges_oneway_semantics_app :
    segmentEdges [⟨1, 0, 0⟩, ⟨2, 0, 1⟩] 7 "residential" "Main St" none 1 2 =
      [⟨1, 2, 7, calculateDistance 0 0 0 1, "residential", "Main St"⟩,
       ⟨2, 1, 7, calculateDistance 0 0 0 1, "residential", "Main St"⟩] ∧
    segmentEdges [⟨1, 0, 0⟩, ⟨2, 0, 1⟩] 7 "residential" "Main St" (some "yes") 1 2 =
      [⟨1, 2, 7, calculateDistance 0 0 0 1, "residential", "Main St"⟩] ∧
    segmentEdges [⟨1, 0, 0⟩, ⟨2, 0, 1⟩] 7 "residential" "Main St" (some "-1") 1 2 =
      [⟨2, 1, 7, calculateDistance 0 0 0 1, "residential", "Main St"⟩] := by
  refine ⟨?_, ?_, ?_⟩
  · rw [segmentEdges_oneway_semantics [⟨1, 0, 0⟩, ⟨2, 0, 1⟩] 7 "residential" "Main St"
      none 1 2 ⟨1, 0, 0⟩ ⟨2, 0, 1⟩ rfl rfl]
    simp
  · rw [segmentEdges_oneway_semantics [⟨1, 0, 0⟩, ⟨2, 0, 1⟩] 7 "residential" "Main St"
      (some "yes") 1 2 ⟨1, 0, 0⟩ ⟨2, 0, 1⟩ rfl rfl]
    simp
  · rw [segmentEdges_oneway_semantics [⟨1, 0, 0⟩, ⟨2, 0, 1⟩] 7 "residential" "Main St"
      (some "-1") 1 2 ⟨1, 0, 0⟩ ⟨2, 0, 1⟩ rfl rfl]
    simp

/-! ## Node-map semantics (claim C10) -/

/-- The `GraphNode`s recorded by pass 1, in element order (before dedup). -/
def nodeElems (els : List RawElement) : List GraphNode :=
  els.filterMap (fun e =>
    match e with
    | .node i la lo => some ⟨i, la, lo⟩
    | .way _ _ _ => none)

/-- The last recorded node with a given id (JS `Map.set` overwrites). -/
def lastWithId (ns : List GraphNode) (i : Int) : Option GraphNode :=
  (ns.filter (fun n => n.id == i)).getLast?

theorem buildNodes_eq_foldl (els : List RawElement) :
    buildNodes els = (nodeElems els).foldl mapSet [] := by
  suffices h : ∀ (acc : List GraphNode),
      els.foldl (fun acc e =>
        match e with
        | .node i la lo => mapSet acc ⟨i, la, lo⟩
        | .way _ _ _ => acc) acc = (nodeElems els).foldl mapSet acc by
    exact h []
  induction els with
  | nil => intro acc; rfl
  | cons e rest ih =>
    intro acc
    cases e with
    | node i la lo =>
      simp only [List.foldl_cons, nodeElems, List.filterMap_cons]
      exact ih (mapSet acc ⟨i, la, lo⟩)
    | way i ns tg =>
      simp only [List.foldl_cons, nodeElems, List.filterMap_cons]
      exact ih acc

theorem map_id_mapSet (m : List GraphNode) (n : GraphNode) :
    (mapSet m n).map GraphNode.id =
      if n.id ∈ m.map GraphNode.id then m.map GraphNode.id
      else m.map GraphNode.id ++ [n.id] := by
  induction m with
  | nil => simp [mapSet]
  | cons m0 rest ih =>
    simp only [mapSet]
    by_cases h : m0.id = n.id
    · simp [h]
    · have : (n.id ∈ m0.id :: rest.map GraphNode.id) ↔ n.id ∈ rest.map GraphNode.id := by
        simp only [List.mem_cons]
        constructor
        · rintro (h2 | h2)
          · exact absurd h2.symm h
          · exact h2
        · exact Or.inr
      simp only [if_neg h, List.map_cons, this, ih]
      by_cases h2 : n.id ∈ rest.map GraphNode.id <;> simp [h2]

theorem mem_mapSet (m : List GraphNode) (n : GraphNode)
    (hnodup : (m.map GraphNode.id).Nodup) (x : GraphNode) :
    x ∈ mapSet m n ↔ x = n ∨ (x ∈ m ∧ x.id ≠ n.id) := by
  induction m with
  | nil => simp [mapSet]
  | cons m0 rest ih =>
    simp only [List.map_cons, List.nodup_cons] at hnodup
    simp only [mapSet]
    by_cases h : m0.id = n.id
    · rw [if_pos h]
      simp only [List.mem_cons]
      constructor
      · rintro (rfl | hx)
        · exact Or.inl rfl
        · refine Or.inr ⟨Or.inr hx, ?_⟩
          intro hid
          have : x.id ∈ rest.map GraphNode.id := List.mem_map_of_mem GraphNode.id hx
          rw [hid, ← h] at this
          exact hnodup.1 this
      · rintro (rfl | ⟨hmem, hid⟩)
        · exact Or.inl rfl
        · rcases hmem with rfl | hx
          · exact absurd h hid
          · exact Or.inr hx
    · rw [if_neg h]
      simp only [List.mem_cons, ih hnodup.2]
      constructor
      · rintro (rfl | rfl | ⟨hx, hid⟩)
        · refine Or.inr ⟨Or.inl rfl, ?_⟩
          exact h
        · exact Or.inl rfl
        · exact Or.inr ⟨Or.inr hx, hid⟩
      · rintro (rfl | ⟨hmem, hid⟩)
        · exact Or.inr (Or.inl rfl)
        · rcases hmem with rfl | hx
          · exact Or.inl rfl
          · exact Or.inr (Or.inr ⟨hx, hid⟩)

theorem lastWithId_append_one (ns : List GraphNode) (n : GraphNode) (i : Int) :
    lastWithId (ns ++ [n]) i =
      if n.id = i then some n else lastWithId ns i := by
  simp only [lastWithId, List.filter_append]
  by_cases h : n.id = i
  · have hb : (n.id == i) = true := by simp [h]
    simp [List.filter, hb, List.getLast?_concat, h]
  · have hb : (n.id == i) = false := by simp [h]
    simp [List.filter, hb, h]

theorem mem_dedupFirstByAux_id {κ : Type} [DecidableEq κ] (seen : List κ) (l : List κ)
    (x : κ) : x ∈ dedupFirstByAux (fun y => y) seen l ↔ x ∉ seen ∧ x ∈ l := by
  induction l generalizing seen with
  | nil => simp [dedupFirstByAux]
  | cons a rest ih =>
    simp only [dedupFirstByAux]
    by_cases h : a ∈ seen
    · rw [if_pos h, ih seen]
      constructor
      · rintro ⟨hns, hr⟩
        exact ⟨hns, List.mem_cons_of_mem a hr⟩
      · rintro ⟨hns, hr⟩
        rcases List.mem_cons.mp hr with rfl | hr2
        · exact absurd h hns
        · exact ⟨hns, hr2⟩
    · rw [if_neg h]
      simp only [List.mem_cons, ih (a :: seen)]
      constructor
      · rintro (rfl | ⟨hns, hr⟩)
        · exact ⟨h, Or.inl rfl⟩
        · exact ⟨fun hx => hns (Or.inr hx), Or.inr hr⟩
      · rintro ⟨hns, rfl | hr⟩
        · exact Or.inl rfl
        · by_cases hx : x = a
          · exact Or.inl hx
          · refine Or.inr ⟨?_, hr⟩
            rintro (h2 | h2)
            · exact hx h2
            · exact hns h2

theorem mem_dedupFirstBy_id {κ : Type} [DecidableEq κ] (l : List κ) (x : κ) :
    x ∈ dedupFirstBy (fun y => y) l ↔ x ∈ l := by
  rw [dedupFirstBy, mem_dedupFirstByAux_id]
  simp

theorem dedupFirstBy_id_snoc {κ : Type} [DecidableEq κ] (l : List κ) (a : κ) :
    dedupFirstBy (fun y => y) (l ++ [a]) =
      dedupFirstBy (fun y => y) l ++ (if a ∈ l then [] else [a]) := by
  rw [dedupFirstBy, dedupFirstByAux_append]
  have hmem : (a ∈ seenAfter (fun y => y) [] l) ↔ a ∈ l := by
    rw [mem_seenAfter]
    simp
  by_cases h : a ∈ l
  · rw [if_pos h]
    simp only [dedupFirstByAux, if_pos (hmem.mpr h)]
    rfl
  · rw [if_neg h]
    have : ¬ a ∈ seenAfter (fun y => y) [] l := fun hx => h (hmem.mp hx)
    simp only [dedupFirstByAux, if_neg this]
    rfl

theorem foldl_mapSet_spec (ns : List GraphNode) :
    ((ns.foldl mapSet []).map GraphNode.id).Nodup ∧
    ((ns.foldl mapSet []).map GraphNode.id
      = dedupFirstBy (fun i => i) (ns.map GraphNode.id)) ∧
    (∀ x ∈ ns.foldl mapSet [], lastWithId ns x.id = some x) := by
  induction ns using List.reverseRecOn with
  | nil => simp [dedupFirstBy, dedupFirstByAux]
  | append_singleton ns n ih =>
    obtain ⟨ihNodup, ihIds, ihVal⟩ := ih
    have hfold : (ns ++ [n]).foldl mapSet [] = mapSet (ns.foldl mapSet []) n := by
      rw [List.foldl_append]
      rfl
    have hmemIff : n.id ∈ (ns.foldl mapSet []).map GraphNode.id
        ↔ n.id ∈ ns.map GraphNode.id := by
      rw [ihIds, mem_dedupFirstBy_id]
    have hval : ∀ x ∈ (ns ++ [n]).foldl mapSet [], lastWithId (ns ++ [n]) x.id = some x := by
      intro x hx
      rw [hfold] at hx
      rcases (mem_mapSet _ n ihNodup x).mp hx with rfl | ⟨hxB, hxne⟩
      · rw [lastWithId_append_one, if_pos rfl]
      · rw [lastWithId_append_one, if_neg (fun h => hxne h.symm)]
        exact ihVal x hxB
    refine ⟨?_, ?_, hval⟩
    · rw [hfold, map_id_mapSet]
      by_cases h : n.id ∈ ns.map GraphNode.id
      · rw [if_pos (hmemIff.mpr h)]
        exact ihNodup
      · rw [if_neg (fun hx => h (hmemIff.mp hx))]
        have hnotin : n.id ∉ (ns.foldl mapSet []).map GraphNode.id :=
          fun hx => h (hmemIff.mp hx)
        simp [List.nodup_append, ihNodup, hnotin]
    · rw [hfold, map_id_mapSet]
      simp only [List.map_append, List.map_cons, List.map_nil]
      rw [dedupFirstBy_id_snoc]
      by_cases h : n.id ∈ ns.map GraphNode.id
      · rw [if_pos (hmemIff.mpr h)]
        rw [if_pos h, ihIds, List.append_nil]
      · rw [if_neg (fun hx => h (hmemIff.mp hx))]
        rw [if_neg h, ihIds]

/-- C10: when the input contains several node elements with the same id,
`convertToGraph` outputs exactly one node per id (output ids are pairwise
distinct), in first-occurrence order, and each output node is the last
recorded element with that id (later duplicates overwrite coordinates but
not position). -/
theorem convertToGraph_node_dedup (els : List RawElement) :
    ((convertToGraph (.withElements els)).nodes.map GraphNode.id).Nodup ∧
    ((convertToGraph (.withElements els)).nodes.map GraphNode.id
      = dedupFirstBy (fun i => i) ((nodeElems els).map GraphNode.id)) ∧
    ∀ n ∈ (convertToGraph (.withElements els)).nodes,
      lastWithId (nodeElems els) n.id = some n := by
  have hn : (convertToGraph (.withElements els)).nodes = (nodeElems els).foldl mapSet [] := by
    simp only [convertToGraph]
    exact buildNodes_eq_foldl els
  rw [hn]
  exact foldl_mapSet_spec (nodeElems els)

/-- Concrete instance of `convertToGraph_node_dedup`: two node elements with
id 1, the second with different coordinates, produce the single node
`⟨1, 5, 6⟩` — the coordinates of the last occurrence. -/
theorem convertToGraph_node_dedup_app :
    lastWithId (nodeElems [RawElement.node 1 0 0, RawElement.node 1 5 6]) 1
      = some ⟨1, 5, 6⟩ := by
  have h := (convertToGraph_node_dedup [RawElement.node 1 0 0, RawElement.node 1 5 6]).2.2
    ⟨1, 5, 6⟩ (by simp [convertToGraph, buildNodes, mapSet])
  simpa using h

/-! ## validateBounds (claim C2)

A JS number is NaN, +Infinity, -Infinity or finite; a field can also be
absent (`undefined`).  The input can be null/falsy, a non-object, or an
object with the four fields. -/

inductive JSNum : Type
  | nan
  | inf
  | ninf
  | fin (q : ℚ)
deriving DecidableEq

/-- JS `<`: false whenever either side is NaN. -/
def jsLt : JSNum → JSNum → Bool
  | .nan, _ => false
  | _, .nan => false
  | .ninf, .ninf => false
  | .ninf, _ => true
  | _, .ninf => false
  | .inf, _ => false
  | .fin _, .inf => true
  | .fin a, .fin b => decide (a < b)

/-- JS `<=`: false whenever either side is NaN. -/
def jsLe : JSNum → JSNum → Bool
  | .nan, _ => false
  | _, .nan => false
  | .ninf, _ => true
  | _, .ninf => false
  | _, .inf => true
  | .inf, _ => false
  | .fin a, .fin b => decide (a ≤ b)

/-- JS `>`. -/
def jsGt (a b : JSNum) : Bool := jsLt b a

structure BoundsObj where
  north : Option JSNum
  south : Option JSNum
  east : Option JSNum
  west : Option JSNum
deriving DecidableEq

inductive BoundsInput : Type
  | null
  | nonObject
  | obj (fields : BoundsObj)
deriving DecidableEq

/-- `typeof value === 'number' && !isNaN(value)`: an absent field is
`undefined` (not a number), NaN is rejected, infinities pass. -/
def isValidNumber : Option JSNum → Bool
  | none => false
  | some .nan => false
  | some _ => true

/-- `validateBounds(bounds)` from the source, with the thrown message as the
error value.  The per-field loop over `Object.entries({north, south, east,
west})` visits the fields in that insertion order and reports the first
invalid one.  Past the loop the fields are present and non-NaN, so the
`.getD .nan` defaults are unreachable. -/
def validateBounds : BoundsInput → Except String Unit
  | .null => .error "Bounds must be an object"
  | .nonObject => .error "Bounds must be an object"
  | .obj f =>
    if !isValidNumber f.north then .error "north must be a valid number"
    else if !isValidNumber f.south then .error "south must be a valid number"
    else if !isValidNumber f.east then .error "east must be a valid number"
    else if !isValidNumber f.west then .error "west must be a valid number"
    else
      let north := f.north.getD .nan
      let south := f.south.getD .nan
      let east := f.east.getD .nan
      let west := f.west.getD .nan
      if jsLe north south then .error "North must be greater than south"
      else if jsGt north (.fin 90) || jsLt north (.fin (-90))
          || jsGt south (.fin 90) || jsLt south (.fin (-90)) then
        .error "Latitude must be between -90 and 90"
      else if jsGt east (.fin 180) || jsLt east (.fin (-180))
          || jsGt west (.fin 180) || jsLt west (.fin (-180)) then
        .error "Longitude must be between -180 and 180"
      else if jsLe east west then .error "East must be greater than west"
      else .ok ()

/-- First violated rule of an ordered rule list, with its message. -/
def firstViolation : List (Bool × String) → Except String Unit
  | [] => .ok ()
  | r :: rest => if r.1 then .error r.2 else firstViolation rest

/-- The claim's reading of the validator: an object-shape check followed by
a fixed ordered list of rules, stopping at the first violation with that
rule's message. -/
def specValidateBounds : BoundsInput → Except String Unit
  | .null => .error "Bounds must be an object"
  | .nonObject => .error "Bounds must be an object"
  | .obj f =>
    let north := f.north.getD .nan
    let south := f.south.getD .nan
    let east := f.east.getD .nan
    let west := f.west.getD .nan
    firstViolation
      [(!isValidNumber f.north, "north must be a valid number"),
       (!isValidNumber f.south, "south must be a valid number"),
       (!isValidNumber f.east, "east must be a valid number"),
       (!isValidNumber f.west, "west must be a valid number"),
       (jsLe north south, "North must be greater than south"),
       (jsGt north (.fin 90) || jsLt north (.fin (-90))
         || jsGt south (.fin 90) || jsLt south (.fin (-90)),
        "Latitude must be between -90 and 90"),
       (jsGt east (.fin 180) || jsLt east (.fin (-180))
         || jsGt west (.fin 180) || jsLt west (.fin (-180)),
        "Longitude must be between -180 and 180"),
       (jsLe east west, "East must be greater than west")]

/-- C2: `validateBounds` is exactly the ordered first-violation cascade of
the spec (object shape; per-field number validity naming the field in the
order north, south, east, west; `north > south` strict; latitude range;
longitude range; `east > west` strict), and it succeeds exactly on objects
whose four fields are finite numbers satisfying all the range and ordering
rules — in particular NaN, missing fields, non-objects and infinities all
fail. -/
theorem validateBounds_ordered_rules :
    (∀ b : BoundsInput, validateBounds b = specValidateBounds b) ∧
    (∀ f : BoundsObj, validateBounds (.obj f) = .ok () ↔
      ∃ n s e w : ℚ, f.north = some (.fin n) ∧ f.south = some (.fin s)
        ∧ f.east = some (.fin e) ∧ f.west = some (.fin w)
        ∧ s < n ∧ -90 ≤ n ∧ n ≤ 90 ∧ -90 ≤ s ∧ s ≤ 90
        ∧ -180 ≤ e ∧ e ≤ 180 ∧ -180 ≤ w ∧ w ≤ 180 ∧ w < e) := by
  constructor
  · intro b
    cases b with
    | null => rfl
    | nonObject => rfl
    | obj f => rfl
  · intro f
    constructor
    · intro h
      have hv1 : isValidNumber f.north = true := by
        by_cases hb : isValidNumber f.north = true
        · exact hb
        · have hb2 : isValidNumber f.north = false := by simpa using hb
          simp [validateBounds, hb2] at h
      have hv2 : isValidNumber f.south = true := by
        by_cases hb : isValidNumber f.south = true
        · exact hb
        · have hb2 : isValidNumber f.south = false := by simpa using hb
          simp [validateBounds, hv1, hb2] at h
      have hv3 : isValidNumber f.east = true := by
        by_cases hb : isValidNumber f.east = true
        · exact hb
        · have hb2 : isValidNumber f.east = false := by simpa using hb
          simp [validateBounds, hv1, hv2, hb2] at h
      have hv4 : isValidNumber f.west = true := by
        by_cases hb : isValidNumber f.west = true
        · exact hb
        · have hb2 : isValidNumber f.west = false := by simpa using hb
          simp [validateBounds, hv1, hv2, hv3, hb2] at h
      obtain ⟨vn, hn⟩ : ∃ v, f.north = some v := by
        cases hx : f.north with
        | none => rw [hx] at hv1; simp [isValidNumber] at hv1
        | some v => exact ⟨v, rfl⟩
      obtain ⟨vs, hs⟩ : ∃ v, f.south = some v := by
        cases hx : f.south with
        | none => rw [hx] at hv2; simp [isValidNumber] at hv2
        | some v => exact ⟨v, rfl⟩
      obtain ⟨ve, he⟩ : ∃ v, f.east = some v := by
        cases hx : f.east with
        | none => rw [hx] at hv3; simp [isValidNumber] at hv3
        | some v => exact ⟨v, rfl⟩
      obtain ⟨vw, hw⟩ : ∃ v, f.west = some v := by
        cases hx : f.west with
        | none => rw [hx] at hv4; simp [isValidNumber] at hv4
        | some v => exact ⟨v, rfl⟩
      rw [hn] at hv1
      rw [hs] at hv2
      rw [he] at hv3
      rw [hw] at hv4
      simp only [validateBounds, hn, hs, he, hw, hv1, hv2, hv3, hv4, Bool.not_true,
        Bool.false_eq_true, if_false, Option.getD_some] at h
      have c1 : jsLe vn vs = false := by
        cases hc : jsLe vn vs with
        | false => rfl
        | true => rw [hc] at h; simp at h
      rw [c1] at h
      simp only [Bool.false_eq_true, if_false] at h
      have c2 : (jsGt vn (.fin 90) || jsLt vn (.fin (-90))
          || jsGt vs (.fin 90) || jsLt vs (.fin (-90))) = false := by
        cases hc : (jsGt vn (.fin 90) || jsLt vn (.fin (-90))
            || jsGt vs (.fin 90) || jsLt vs (.fin (-90))) with
        | false => rfl
        | true => rw [hc] at h; simp at h
      rw [c2] at h
      simp only [Bool.false_eq_true, if_false] at h
      have c3 : (jsGt ve (.fin 180) || jsLt ve (.fin (-180))
          || jsGt vw (.fin 180) || jsLt vw (.fin (-180))) = false := by
        cases hc : (jsGt ve (.fin 180) || jsLt ve (.fin (-180))
            || jsGt vw (.fin 180) || jsLt vw (.fin (-180))) with
        | false => rfl
        | true => rw [hc] at h; simp at h
      rw [c3] at h
      simp only [Bool.false_eq_true, if_false] at h
      have c4 : jsLe ve vw = false := by
        cases hc : jsLe ve vw with
        | false => rfl
        | true => rw [hc] at h; simp at h
      have hnfin : ∃ n : ℚ, vn = .fin n := by
        cases vn with
        | nan => simp [isValidNumber] at hv1
        | inf =>
          exfalso
          have : jsGt JSNum.inf (.fin 90) = true := rfl
          simp [this] at c2
        | ninf =>
          exfalso
          cases vs with
          | nan => simp [isValidNumber] at hv2
          | inf => simp [jsLe] at c1
          | ninf => simp [jsLe] at c1
          | fin s => simp [jsLe] at c1
        | fin n => exact ⟨n, rfl⟩
      obtain ⟨n, rfl⟩ := hnfin
      have hsfin : ∃ s : ℚ, vs = .fin s := by
        cases vs with
        | nan => simp [isValidNumber] at hv2
        | inf => simp [jsLe] at c1
        | ninf =>
          exfalso
          have : jsLt JSNum.ninf (.fin (-90)) = true := rfl
          simp [this] at c2
        | fin s => exact ⟨s, rfl⟩
      obtain ⟨s, rfl⟩ := hsfin
      have hefin : ∃ e : ℚ, ve = .fin e := by
        cases ve with
        | nan => simp [isValidNumber] at hv3
        | inf =>
          exfalso
          have : jsGt JSNum.inf (.fin 180) = true := rfl
          simp [this] at c3
        | ninf =>
          exfalso
          have : jsLt JSNum.ninf (.fin (-180)) = true := rfl
          simp [this] at c3
        | fin e => exact ⟨e, rfl⟩
      obtain ⟨e, rfl⟩ := hefin
      have hwfin : ∃ w : ℚ, vw = .fin w := by
        cases vw with
        | nan => simp [isValidNumber] at hv4
        | inf =>
          exfalso
          have : jsGt JSNum.inf (.fin 180) = true := rfl
          simp [this] at c3
        | ninf =>
          exfalso
          have : jsLt JSNum.ninf (.fin (-180)) = true := rfl
          simp [this] at c3
        | fin w => exact ⟨w, rfl⟩
      obtain ⟨w, rfl⟩ := hwfin
      simp only [jsLe, decide_eq_false_iff_not, not_le] at c1 c4
      simp only [jsGt, jsLt, Bool.or_eq_false_iff, decide_eq_false_iff_not, not_lt] at c2 c3
      exact ⟨n, s, e, w, hn, hs, he, hw, c1, c2.1.1.2, c2.1.1.1, c2.2, c2.1.2,
        c3.1.1.2, c3.1.1.1, c3.2, c3.1.2, c4⟩
    · rintro ⟨n, s, e, w, hn, hs, he, hw, h1, h2, h3, h4, h5, h6, h7, h8, h9, h10⟩
      have c1 : jsLe (JSNum.fin n) (JSNum.fin s) = false := by
        simp only [jsLe, decide_eq_false_iff_not, not_le]
        exact h1
      have c2 : (jsGt (JSNum.fin n) (.fin 90) || jsLt (JSNum.fin n) (.fin (-90))
          || jsGt (JSNum.fin s) (.fin 90) || jsLt (JSNum.fin s) (.fin (-90))) = false := by
        simp only [jsGt, jsLt, Bool.or_eq_false_iff, decide_eq_false_iff_not, not_lt]
        exact ⟨⟨⟨h3, h2⟩, h5⟩, h4⟩
      have c3 : (jsGt (JSNum.fin e) (.fin 180) || jsLt (JSNum.fin e) (.fin (-180))
          || jsGt (JSNum.fin w) (.fin 180) || jsLt (JSNum.fin w) (.fin (-180))) = false := by
        simp only [jsGt, jsLt, Bool.or_eq_false_iff, decide_eq_false_iff_not, not_lt]
        exact ⟨⟨⟨h7, h6⟩, h9⟩, h8⟩
      have c4 : jsLe (JSNum.fin e) (JSNum.fin w) = false := by
        simp only [jsLe, decide_eq_false_iff_not, not_le]
        exact h10
      simp [validateBounds, hn, hs, he, hw, isValidNumber, c1, c2, c3, c4]

/-- Concrete instance of `validateBounds_ordered_rules`: the valid Berlin
box is accepted. -/
theorem validateBounds_ordered_rules_app :
    validateBounds (.obj ⟨some (.fin (52.52 : ℚ)), some (.fin (52.50 : ℚ)),
      some (.fin (13.41 : ℚ)), some (.fin (13.39 : ℚ))⟩) = .ok () := by
  refine (validateBounds_ordered_rules.2 _).mpr
    ⟨52.52, 52.50, 13.41, 13.39, rfl, rfl, rfl, rfl, ?_, ?_, ?_, ?_, ?_, ?_, ?_, ?_, ?_, ?_⟩
    <;> norm_num

/-! ## splitBounds and the tiling threshold (claims C3, C4) -/

structure Bounds where
  north : ℚ
  south : ℚ
  east : ℚ
  west : ℚ
deriving DecidableEq

/-- Trip count of `for (let s = lo; s < hi; s += step)`: the loop visits
`lo + i*step` for exactly the naturals `i` with `lo + i*step < hi`, which
for `step > 0` are the `⌈(hi - lo)/step⌉` first ones (none when the span is
non-positive).  A non-positive `step` would make the JS loop diverge and
never occurs: `maxDeg` is 0.05 at the call site. -/
def tileCount (lo hi step : ℚ) : Nat := (⌈(hi - lo) / step⌉).toNat

/-- The loop variable values of one dimension of `splitBounds`. -/
def tileStarts (lo hi step : ℚ) : List ℚ :=
  (List.range (tileCount lo hi step)).map (fun i : Nat => lo + (i : ℚ) * step)

/-- `splitBounds(bounds, maxDeg)` from the source (`maxDeg = 0.05` at the
call site): a grid of tiles, each expanded by `overlap = maxDeg * 0.1` and
clamped to the legal latitude/longitude ranges. -/
def splitBounds (b : Bounds) (maxDeg : ℚ) : List Bounds :=
  let overlap := maxDeg * (1/10)
  (tileStarts b.south b.north maxDeg).flatMap (fun s =>
    (tileStarts b.west b.east maxDeg).map (fun w =>
      { south := max (s - overlap) (-90)
        north := min (s + maxDeg + overlap) 90
        west := max (w - overlap) (-180)
        east := min (w + maxDeg + overlap) 180 }))

/-- `TILE_THRESHOLD = 0.1` from the background orchestrator. -/
def TILE_THRESHOLD : ℚ := 1/10

/-- `needsTiling = latSpan > TILE_THRESHOLD || lonSpan > TILE_THRESHOLD`
from `fetchOsmData` in the background orchestrator. -/
def needsTiling (b : Bounds) : Bool :=
  decide (TILE_THRESHOLD < b.north - b.south) || decide (TILE_THRESHOLD < b.east - b.west)

theorem mem_range_tileCount (lo hi step : ℚ) (hstep : 0 < step) (i : Nat) :
    i ∈ List.range (tileCount lo hi step) ↔ lo + (i : ℚ) * step < hi := by
  rw [List.mem_range, tileCount]
  rw [Int.lt_toNat, Int.lt_ceil]
  rw [lt_div_iff₀ hstep]
  constructor
  · intro h
    have : (i : ℚ) * step < hi - lo := by exact_mod_cast h
    linarith
  · intro h
    have : (i : ℚ) * step < hi - lo := by linarith
    exact_mod_cast this

theorem mem_tileStarts (lo hi step : ℚ) (s : ℚ) :
    s ∈ tileStarts lo hi step ↔
      ∃ i ∈ List.range (tileCount lo hi step), lo + (i : ℚ) * step = s := by
  rw [tileStarts]
  exact List.mem_map

theorem lo_mem_tileStarts (lo hi step : ℚ) (hstep : 0 < step) (hlh : lo < hi) :
    lo ∈ tileStarts lo hi step := by
  rw [mem_tileStarts]
  refine ⟨0, ?_, by push_cast; ring⟩
  rw [mem_range_tileCount lo hi step hstep]
  push_cast
  linarith

theorem tileStarts_last (lo hi step : ℚ) (hstep : 0 < step) (hlh : lo < hi) :
    ∃ s ∈ tileStarts lo hi step, hi ≤ s + step := by
  have hx : 0 < (hi - lo) / step := div_pos (by linarith) hstep
  have hceil : 0 < ⌈(hi - lo) / step⌉ := Int.ceil_pos.mpr hx
  have hN : 0 < tileCount lo hi step := by
    rw [tileCount]
    omega
  refine ⟨lo + ((tileCount lo hi step - 1 : Nat) : ℚ) * step, ?_, ?_⟩
  · rw [mem_tileStarts]
    refine ⟨tileCount lo hi step - 1, ?_, rfl⟩
    rw [List.mem_range]
    omega
  · have hcast : ((tileCount lo hi step - 1 : Nat) : ℚ) = (tileCount lo hi step : ℚ) - 1 := by
      have : (1 : Nat) ≤ tileCount lo hi step := hN
      push_cast [Nat.cast_sub this]
      ring
    rw [hcast]
    have hNceil : ((tileCount lo hi step : ℤ) : ℚ) = ((⌈(hi - lo) / step⌉ : ℤ) : ℚ) := by
      rw [tileCount]
      rw [Int.toNat_of_nonneg (le_of_lt hceil)]
    have hge : (hi - lo) / step ≤ (tileCount lo hi step : ℚ) := by
      have h1 := Int.le_ceil ((hi - lo) / step)
      calc (hi - lo) / step ≤ ((⌈(hi - lo) / step⌉ : ℤ) : ℚ) := h1
        _ = (tileCount lo hi step : ℚ) := by exact_mod_cast hNceil.symm
    have hmul : hi - lo ≤ (tileCount lo hi step : ℚ) * step := by
      rw [div_le_iff₀ hstep] at hge
      exact hge
    linarith

theorem tileStarts_bounds (lo hi step : ℚ) (hstep : 0 < step) :
    ∀ s ∈ tileStarts lo hi step, lo ≤ s ∧ s < hi := by
  intro s hs
  rw [mem_tileStarts] at hs
  obtain ⟨i, hi2, rfl⟩ := hs
  rw [mem_range_tileCount lo hi step hstep] at hi2
  constructor
  · have : 0 ≤ (i : ℚ) * step := mul_nonneg (by positivity) (le_of_lt hstep)
    linarith
  · exact hi2

theorem mem_splitBounds (b : Bounds) (maxDeg : ℚ) (t : Bounds) :
    t ∈ splitBounds b maxDeg ↔
      ∃ s ∈ tileStarts b.south b.north maxDeg,
        ∃ w ∈ tileStarts b.west b.east maxDeg,
          t = ⟨min (s + maxDeg + maxDeg * (1/10)) 90, max (s - maxDeg * (1/10)) (-90),
               min (w + maxDeg + maxDeg * (1/10)) 180, max (w - maxDeg * (1/10)) (-180)⟩ := by
  simp only [splitBounds, List.mem_flatMap, List.mem_map]
  constructor
  · rintro ⟨s, hs, w, hw, rfl⟩
    exact ⟨s, hs, w, hw, rfl⟩
  · rintro ⟨s, hs, w, hw, rfl⟩
    exact ⟨s, hs, w, hw, rfl⟩

/-- C3: for every bounding box (data-model invariants assumed) the returned
tiles jointly cover the box — some tile reaches at least as far south as
the box's south, at least as far north as its north, and likewise west and
east — and every returned tile satisfies `north > south` and
`east > west`. -/
theorem splitBounds_covers (b : Bounds) (maxDeg : ℚ) (hm : 0 < maxDeg)
    (hns : b.south < b.north) (hew : b.west < b.east)
    (hs90 : -90 ≤ b.south) (hn90 : b.north ≤ 90)
    (hw180 : -180 ≤ b.west) (he180 : b.east ≤ 180) :
    (∃ t ∈ splitBounds b maxDeg, t.south ≤ b.south) ∧
    (∃ t ∈ splitBounds b maxDeg, b.north ≤ t.north) ∧
    (∃ t ∈ splitBounds b maxDeg, t.west ≤ b.west) ∧
    (∃ t ∈ splitBounds b maxDeg, b.east ≤ t.east) ∧
    (∀ t ∈ splitBounds b maxDeg, t.south < t.north ∧ t.west < t.east) := by
  have hov : 0 < maxDeg * (1/10) := by positivity
  obtain ⟨sl, hsl, hsl2⟩ := tileStarts_last b.south b.north maxDeg hm hns
  obtain ⟨wl, hwl, hwl2⟩ := tileStarts_last b.west b.east maxDeg hm hew
  have hs0 := lo_mem_tileStarts b.south b.north maxDeg hm hns
  have hw0 := lo_mem_tileStarts b.west b.east maxDeg hm hew
  refine ⟨?_, ?_, ?_, ?_, ?_⟩
  · refine ⟨_, (mem_splitBounds b maxDeg _).mpr ⟨b.south, hs0, b.west, hw0, rfl⟩, ?_⟩
    show max (b.south - maxDeg * (1/10)) (-90) ≤ b.south
    exact max_le (by linarith) hs90
  · refine ⟨_, (mem_splitBounds b maxDeg _).mpr ⟨sl, hsl, b.west, hw0, rfl⟩, ?_⟩
    show b.north ≤ min (sl + maxDeg + maxDeg * (1/10)) 90
    exact le_min (by linarith) hn90
  · refine ⟨_, (mem_splitBounds b maxDeg _).mpr ⟨b.south, hs0, b.west, hw0, rfl⟩, ?_⟩
    show max (b.west - maxDeg * (1/10)) (-180) ≤ b.west
    exact max_le (by linarith) hw180
  · refine ⟨_, (mem_splitBounds b maxDeg _).mpr ⟨b.south, hs0, wl, hwl, rfl⟩, ?_⟩
    show b.east ≤ min (wl + maxDeg + maxDeg * (1/10)) 180
    exact le_min (by linarith) he180
  · intro t ht
    rw [mem_splitBounds] at ht
    obtain ⟨s, hsmem, w, hwmem, rfl⟩ := ht
    obtain ⟨hp1, hp2⟩ := tileStarts_bounds b.south b.north maxDeg hm s hsmem
    obtain ⟨hp3, hp4⟩ := tileStarts_bounds b.west b.east maxDeg hm w hwmem
    constructor
    · show max (s - maxDeg * (1/10)) (-90) < min (s + maxDeg + maxDeg * (1/10)) 90
      exact lt_min (max_lt (by linarith) (by linarith)) (max_lt (by linarith) (by linarith))
    · show max (w - maxDeg * (1/10)) (-180) < min (w + maxDeg + maxDeg * (1/10)) 180
      exact lt_min (max_lt (by linarith) (by linarith)) (max_lt (by linarith) (by linarith))

/-- Concrete instance of `splitBounds_covers` at the Berlin box with the
default tile size 0.05. -/
theorem splitBounds_covers_app :
    (∃ t ∈ splitBounds ⟨52.52, 52.50, 13.41, 13.39⟩ (5/100), t.south ≤ (52.50 : ℚ)) ∧
    (∃ t ∈ splitBounds ⟨52.52, 52.50, 13.41, 13.39⟩ (5/100), (52.52 : ℚ) ≤ t.north) ∧
    (∃ t ∈ splitBounds ⟨52.52, 52.50, 13.41, 13.39⟩ (5/100), t.west ≤ (13.39 : ℚ)) ∧
    (∃ t ∈ splitBounds ⟨52.52, 52.50, 13.41, 13.39⟩ (5/100), (13.41 : ℚ) ≤ t.east) ∧
    (∀ t ∈ splitBounds ⟨52.52, 52.50, 13.41, 13.39⟩ (5/100),
      t.south < t.north ∧ t.west < t.east) :=
  splitBounds_covers ⟨52.52, 52.50, 13.41, 13.39⟩ (5/100)
    (by norm_num)
    (by show (52.50 : ℚ) < 52.52; norm_num)
    (by show (13.39 : ℚ) < 13.41; norm_num)
    (by show (-90 : ℚ) ≤ 52.50; norm_num)
    (by show (52.52 : ℚ) ≤ 90; norm_num)
    (by show (-180 : ℚ) ≤ 13.39; norm_num)
    (by show (13.41 : ℚ) ≤ 180; norm_num)

/-- Counterexample to C4 as stated: a box whose spans (0.08 and 0.02
degrees) are both below the 0.1-degree tiling threshold, on which
`splitBounds` nevertheless returns two tiles, because the tile grid is laid
out with edge `maxDeg = 0.05`, not with the 0.1 threshold. -/
theorem splitBounds_below_threshold_counterexample :
    ((0.08 : ℚ) - 0 < TILE_THRESHOLD) ∧ ((0.02 : ℚ) - 0 < TILE_THRESHOLD) ∧
    (splitBounds ⟨0.08, 0, 0.02, 0⟩ (5/100)).length ≠ 1 := by
  refine ⟨by norm_num [TILE_THRESHOLD], by norm_num [TILE_THRESHOLD], ?_⟩
  have h1 : tileCount (0 : ℚ) 0.08 (5/100) = 2 := by
    have hc : ⌈((0.08 : ℚ) - 0) / (5/100)⌉ = 2 := by
      norm_num [Int.ceil_eq_iff]
    rw [tileCount, hc]
    rfl
  have h2 : tileCount (0 : ℚ) 0.02 (5/100) = 1 := by
    have hc : ⌈((0.02 : ℚ) - 0) / (5/100)⌉ = 1 := by
      norm_num [Int.ceil_eq_iff]
    rw [tileCount, hc]
    rfl
  simp [splitBounds, tileStarts, h1, h2, List.range_succ]

/-- C4 (amended): a box strictly smaller than the tile edge `maxDeg`
(0.05 by default) in both dimensions yields exactly one tile, and the
orchestrator's decision of whether to tile at all is a span of more than
0.1 degrees in latitude or longitude. -/
theorem splitBounds_single_tile_below_maxDeg :
    (∀ (b : Bounds) (maxDeg : ℚ), 0 < maxDeg →
      0 < b.north - b.south → b.north - b.south < maxDeg →
      0 < b.east - b.west → b.east - b.west < maxDeg →
      (splitBounds b maxDeg).length = 1) ∧
    (∀ b : Bounds, needsTiling b = true ↔
      TILE_THRESHOLD < b.north - b.south ∨ TILE_THRESHOLD < b.east - b.west) := by
  constructor
  · intro b maxDeg hm h1 h2 h3 h4
    have hlat : tileCount b.south b.north maxDeg = 1 := by
      have hc : ⌈(b.north - b.south) / maxDeg⌉ = 1 := by
        rw [Int.ceil_eq_iff]
        push_cast
        constructor
        · simpa using div_pos h1 hm
        · exact (div_le_one hm).mpr (le_of_lt h2)
      rw [tileCount, hc]
      rfl
    have hlon : tileCount b.west b.east maxDeg = 1 := by
      have hc : ⌈(b.east - b.west) / maxDeg⌉ = 1 := by
        rw [Int.ceil_eq_iff]
        push_cast
        constructor
        · simpa using div_pos h3 hm
        · exact (div_le_one hm).mpr (le_of_lt h4)
      rw [tileCount, hc]
      rfl
    have hr1 : List.range 1 = [0] := rfl
    simp [splitBounds, tileStarts, hlat, hlon, hr1]
  · intro b
    rw [needsTiling]
    simp [TILE_THRESHOLD]

/-- Concrete instance of `splitBounds_single_tile_below_maxDeg`: the
0.02-degree-span Berlin box yields exactly one tile. -/
theorem splitBounds_single_tile_below_maxDeg_app :
    (splitBounds ⟨52.52, 52.50, 13.41, 13.39⟩ (5/100)).length = 1 :=
  splitBounds_single_tile_below_maxDeg.1 ⟨52.52, 52.50, 13.41, 13.39⟩ (5/100)
    (by norm_num)
    (by show (0 : ℚ) < 52.52 - 52.50; norm_num)
    (by show (52.52 : ℚ) - 52.50 < 5/100; norm_num)
    (by show (0 : ℚ) < 13.41 - 13.39; norm_num)
    (by show (13.41 : ℚ) - 13.39 < 5/100; norm_num)

/-! ## Serializer helpers -/

/-- JS global `String#replace` for a single-character pattern (every pattern
replaced in this code is one character), at the character level. -/
def replaceAll (s : String) (c : Char) (r : String) : String :=
  String.mk (s.data.flatMap (fun ch => if ch = c then r.data else [ch]))

/-- JS `String#includes` for a single-character needle. -/
def containsChar (s : String) (c : Char) : Bool := s.data.contains c

/-- `escapeXml(value)` from the source: the five XML entities, replaced in
this order.  Callers stringify their argument first (`String(value)`). -/
def escapeXml (s : String) : String :=
  replaceAll (replaceAll (replaceAll (replaceAll (replaceAll
    s '&' "&amp;") '<' "&lt;") '>' "&gt;") (Char.ofNat 34) "&quot;") (Char.ofNat 39) "&apos;"

/-- JS `x || y` on strings: the empty string is the only falsy string. -/
def strOr (s t : String) : String := if s = "" then t else s

/-- Decimal string form of a coordinate.  JS renders IEEE doubles; the
claims never constrain this text, so the exact rational's canonical string
stands in for it. -/
def ratStr (q : ℚ) : String := toString q

/-- Stands for the decimal rendering of a computed Haversine weight; the
claims never constrain this text. -/
def weightStr (w : Weight) : String :=
  "dist(" ++ ratStr w.lat1 ++ "," ++ ratStr w.lon1 ++ ","
    ++ ratStr w.lat2 ++ "," ++ ratStr w.lon2 ++ ")"

/-- JS `Array#join(sep)`. -/
def jsJoin (sep : String) : List String → String
  | [] => ""
  | [x] => x
  | x :: y :: rest => x ++ sep ++ jsJoin sep (y :: rest)

/-- Plain concatenation of a list of strings (spec-side). -/
def strConcat : List String → String
  | [] => ""
  | s :: rest => s ++ strConcat rest

theorem foldl_append_strConcat {α : Type} (f : α → String) (l : List α) (init : String) :
    l.foldl (fun acc x => acc ++ f x) init = init ++ strConcat (l.map f) := by
  induction l generalizing init with
  | nil => simp [strConcat]
  | cons a rest ih =>
    simp only [List.foldl_cons, List.map_cons, strConcat, ih (init ++ f a)]
    rw [String.append_assoc]

theorem jsJoin_eq_strConcat (sep : String) (a : String) (l : List String) :
    jsJoin sep (a :: l) = a ++ strConcat (l.map (fun s => sep ++ s)) := by
  induction l generalizing a with
  | nil => simp [jsJoin, strConcat]
  | cons b rest ih =>
    simp only [jsJoin, List.map_cons, strConcat, ih b]
    rw [String.append_assoc, String.append_assoc]

/-! ## convertToGraphML (claim C7) -/

/-- The fixed GraphML prologue of the source: XML declaration, the six
`<key>` declarations (`lat`/`lon` double on nodes; `weight` double,
`wayId` long, `highway` string, `name` string on edges) and the opening
`<graph id="G" edgedefault="directed">`. -/
def graphmlHeader : String :=
  "<?xml version=\"1.0\" encoding=\"UTF-8\"?>\n<graphml xmlns=\"http://graphml.graphdrawing.org/xmlns\">\n    <key id=\"lat\" for=\"node\" attr.name=\"lat\" attr.type=\"double\"/>\n    <key id=\"lon\" for=\"node\" attr.name=\"lon\" attr.type=\"double\"/>\n    <key id=\"weight\" for=\"edge\" attr.name=\"weight\" attr.type=\"double\"/>\n    <key id=\"wayId\" for=\"edge\" attr.name=\"wayId\" attr.type=\"long\"/>\n    <key id=\"highway\" for=\"edge\" attr.name=\"highway\" attr.type=\"string\"/>\n    <key id=\"name\" for=\"edge\" attr.name=\"name\" attr.type=\"string\"/>\n    <graph id=\"G\" edgedefault=\"directed\">\n"

/-- One `<node>` element: the id is the bare XML-escaped node identifier. -/
def nodeXml (n : GraphNode) : String :=
  "        <node id=\"" ++ escapeXml (intStr n.id) ++ "\">\n            <data key=\"lat\">"
    ++ escapeXml (ratStr n.lat) ++ "</data>\n            <data key=\"lon\">"
    ++ escapeXml (ratStr n.lon) ++ "</data>\n        </node>\n"

/-- One `<edge>` element: auto-numbered `e{index}`, source/target are the
bare XML-escaped node identifiers, with the four `<data>` children. -/
def edgeXml (i : Nat) (e : GraphEdge) : String :=
  "        <edge id=\"e" ++ natStr i ++ "\" source=\"" ++ escapeXml (intStr e.source)
    ++ "\" target=\"" ++ escapeXml (intStr e.target) ++ "\">\n            <data key=\"weight\">"
    ++ escapeXml (weightStr e.weight) ++ "</data>\n            <data key=\"wayId\">"
    ++ escapeXml (intStr e.wayId) ++ "</data>\n            <data key=\"highway\">"
    ++ escapeXml (strOr e.highway "") ++ "</data>\n            <data key=\"name\">"
    ++ escapeXml (strOr e.name "") ++ "</data>\n        </edge>\n"

/-- `convertToGraphML(graph)` from the source: `graphml += ...` over the
nodes, then over the edges with their index, then the closing tags. -/
def convertToGraphML (g : Graph) : String :=
  let s1 := g.nodes.foldl (fun acc n => acc ++ nodeXml n) graphmlHeader
  let s2 := (g.edges.enum).foldl (fun acc p => acc ++ edgeXml p.1 p.2) s1
  s2 ++ "    </graph>\n</graphml>"

/-- C7: the GraphML output is the directed-graph header with its key
declarations, followed by exactly one `<node>` element per graph node (bare
XML-escaped id), followed by exactly one `<edge>` element per edge in order,
auto-numbered `e0, e1, …` and referencing source/target by the bare node
identifier, followed by the closing tags. -/
theorem convertToGraphML_structure (g : Graph) :
    convertToGraphML g =
      graphmlHeader ++ strConcat (g.nodes.map nodeXml)
        ++ strConcat ((g.edges.enum).map (fun p => edgeXml p.1 p.2))
        ++ "    </graph>\n</graphml>" := by
  simp only [convertToGraphML]
  rw [foldl_append_strConcat, foldl_append_strConcat]

/-! ## convertToCSV (claim C8) -/

/-- `csvEscape(value)` from the source (RFC 4180): wrap in double quotes,
doubling internal double quotes, iff the string contains a comma, a double
quote or a newline. -/
def csvEscape (s : String) : String :=
  if containsChar s ',' || containsChar s (Char.ofNat 34) || containsChar s (Char.ofNat 10) then
    "\"" ++ replaceAll s (Char.ofNat 34) "\"\"" ++ "\""
  else s

/-- One CSV row of `convertToCSV`: the six escaped fields joined by commas. -/
def csvRow (e : GraphEdge) : String :=
  jsJoin "," [csvEscape (intStr e.source), csvEscape (intStr e.target),
    csvEscape (weightStr e.weight), csvEscape (strOr e.highway ""),
    csvEscape (strOr e.name ""), csvEscape (intStr e.wayId)]

def csvHeader : String := "source,target,weight,highway,name,wayId"

/-- `convertToCSV(graph)` from the source: `[header, ...rows].join('\n')`. -/
def convertToCSV (g : Graph) : String :=
  jsJoin "\n" (csvHeader :: g.edges.map csvRow)

/-- C8: the CSV output is exactly the header row
`source,target,weight,highway,name,wayId` followed by one comma-joined row
per edge in graph order; the empty graph produces the header alone; a field
containing a comma, double quote or newline is wrapped in double quotes
with internal double quotes doubled, and any other field passes through
unchanged. -/
theorem convertToCSV_structure (g : Graph) :
    convertToCSV g = csvHeader ++ strConcat (g.edges.map (fun e => "\n" ++ csvRow e)) ∧
    (g.edges = [] → convertToCSV g = csvHeader) ∧
    (∀ s : String,
      (containsChar s ',' || containsChar s (Char.ofNat 34)
        || containsChar s (Char.ofNat 10)) = true →
      csvEscape s = "\"" ++ replaceAll s (Char.ofNat 34) "\"\"" ++ "\"") ∧
    (∀ s : String,
      (containsChar s ',' || containsChar s (Char.ofNat 34)
        || containsChar s (Char.ofNat 10)) = false →
      csvEscape s = s) := by
  refine ⟨?_, ?_, ?_, ?_⟩
  · rw [convertToCSV, jsJoin_eq_strConcat]
    simp only [List.map_map]
    rfl
  · intro h
    rw [convertToCSV, h]
    rfl
  · intro s hs
    rw [csvEscape, if_pos hs]
  · intro s hs
    rw [csvEscape, if_neg (by simp [hs])]

/-- Concrete instance of `convertToCSV_structure`: the empty graph yields
the bare header, and a field with a comma is quoted. -/
theorem convertToCSV_structure_app :
    convertToCSV ⟨true, false, [], [], []⟩ = csvHeader ∧
    csvEscape "Main,St" = "\"Main,St\"" := by
  have h := convertToCSV_structure ⟨true, false, [], [], []⟩
  refine ⟨h.2.1 rfl, ?_⟩
  have h2 := h.2.2.1 "Main,St" (by decide)
  rw [h2]
  decide

/-! ## convertToTikZ (claim C9) -/

/-- Zero-padded four-digit rendering of `m % 10000`. -/
def pad4 (m : Nat) : String :=
  if m < 10 then "000" ++ natStr m
  else if m < 100 then "00" ++ natStr m
  else if m < 1000 then "0" ++ natStr m
  else natStr m

/-- `toFixed(4)` modelled on exact rationals (round half up; JS rounds the
underlying binary double, a difference immaterial to every claim). -/
def fixed4 (q : ℚ) : String :=
  let n : Int := ⌊q * 10000 + 1/2⌋
  (if n < 0 then "-" else "") ++ natStr (n.natAbs / 10000) ++ "." ++ pad4 (n.natAbs % 10000)

/-- The `idToIdx` map of the source: node id to its index, built with
`Map.set` over the nodes in order (last set wins). -/
def idToIdx (nodes : List GraphNode) : List (Int × Nat) :=
  nodes.enum.map (fun p => (p.2.id, p.1))

/-- `Map.get` on `idToIdx` (the most recently set binding wins). -/
def idxGet (m : List (Int × Nat)) (i : Int) : Option Nat :=
  (m.reverse.find? (fun p => p.1 == i)).map (fun p => p.2)

/-- One `\draw` command of the source. -/
def tikzDrawLine (si ti : Nat) : String :=
  "  \\draw[edge] (n" ++ natStr si ++ ") -- (n" ++ natStr ti ++ ");"

/-- The dedup key `` `${lo}-${hi}` `` of the source, `lo`/`hi` being the
smaller/larger resolved node index. -/
def tikzEdgeKey (si ti : Nat) : String :=
  natStr (min si ti) ++ "-" ++ natStr (max si ti)

/-- The edge loop of `convertToTikZ`: resolve both endpoints (skipping the
edge if either is missing), then emit one `\draw` per unseen canonical
key. -/
def tikzEdgeLoop (m : List (Int × Nat)) (seen : List String) : List GraphEdge → List String
  | [] => []
  | e :: rest =>
    match idxGet m e.source, idxGet m e.target with
    | some si, some ti =>
      if tikzEdgeKey si ti ∈ seen then tikzEdgeLoop m seen rest
      else tikzDrawLine si ti :: tikzEdgeLoop m (tikzEdgeKey si ti :: seen) rest
    | _, _ => tikzEdgeLoop m seen rest

/-- The draw commands emitted by `convertToTikZ` for a graph. -/
def tikzEdgeLines (g : Graph) : List String :=
  tikzEdgeLoop (idToIdx g.nodes) [] g.edges

/-- One `\node` command of the source. -/
def tikzCoordLine (m : List (Int × Nat)) (minLat minLon scale : ℚ) (n : GraphNode) : String :=
  "  \\node[vertex] (n" ++ natStr ((idxGet m n.id).getD 0) ++ ") at ("
    ++ fixed4 ((n.lon - minLon) * scale) ++ "," ++ fixed4 ((n.lat - minLat) * scale)
    ++ ") \x7b\x7d;"

def tikzEmptyDoc : String :=
  "\\documentclass[tikz]\x7bstandalone\x7d\n\\begin\x7bdocument\x7d\n\\begin\x7btikzpicture\x7d\n  % empty graph\n\\end\x7btikzpicture\x7d\n\\end\x7bdocument\x7d"

/-- `convertToTikZ(graph)` from the source.  The min/max loops start from
`±Infinity` in JS; over the nonempty node list this equals folding from the
first node's coordinate.  `latRange = maxLat - minLat || 1` maps a zero
span to 1. -/
def convertToTikZ (g : Graph) : String :=
  match g.nodes with
  | [] => tikzEmptyDoc
  | n0 :: _ =>
    let minLat := g.nodes.foldl (fun m n => min m n.lat) n0.lat
    let maxLat := g.nodes.foldl (fun m n => max m n.lat) n0.lat
    let minLon := g.nodes.foldl (fun m n => min m n.lon) n0.lon
    let maxLon := g.nodes.foldl (fun m n => max m n.lon) n0.lon
    let latRange := if maxLat - minLat = 0 then 1 else maxLat - minLat
    let lonRange := if maxLon - minLon = 0 then 1 else maxLon - minLon
    let scale := 10 / max latRange lonRange
    let m := idToIdx g.nodes
    let coordLines := g.nodes.map (tikzCoordLine m minLat minLon scale)
    "\\documentclass[tikz]\x7bstandalone\x7d\n\\usepackage\x7btikz\x7d\n\\begin\x7bdocument\x7d\n\\begin\x7btikzpicture\x7d[\n  vertex/.style=\x7bcircle, fill=black, inner sep=0pt, minimum size=1.5pt\x7d,\n  edge/.style=\x7bdraw, thin, black!40\x7d,\n]\n"
      ++ jsJoin "\n" coordLines ++ "\n" ++ jsJoin "\n" (tikzEdgeLines g)
      ++ "\n\\end\x7btikzpicture\x7d\n\\end\x7bdocument\x7d"

/-- Resolution of one edge's endpoints against `idToIdx` (spec-side). -/
def resolveEdge (m : List (Int × Nat)) (e : GraphEdge) : Option (Nat × Nat) :=
  match idxGet m e.source, idxGet m e.target with
  | some si, some ti => some (si, ti)
  | _, _ => none

/-- The unordered pair of resolved endpoint indices, as a canonical
(min, max) pair. -/
def unordPair (p : Nat × Nat) : Nat × Nat := (min p.1 p.2, max p.1 p.2)

theorem cons_middle_inj {γ : Type} (c : γ) :
    ∀ (l1 l3 : List γ) (l2 l4 : List γ), c ∉ l1 → c ∉ l3 →
      l1 ++ c :: l2 = l3 ++ c :: l4 → l1 = l3 ∧ l2 = l4
  | [], [], l2, l4, _, _, h => by
    simp only [List.nil_append] at h
    exact ⟨rfl, (List.cons.injEq _ _ _ _ ▸ h).2⟩
  | [], b :: l3t, l2, l4, _, h3, h => by
    exfalso
    simp only [List.nil_append, List.cons_append] at h
    have : c = b := (List.cons.injEq _ _ _ _ ▸ h).1
    exact h3 (this ▸ List.mem_cons_self b l3t)
  | a :: l1t, [], l2, l4, h1, _, h => by
    exfalso
    simp only [List.nil_append, List.cons_append] at h
    have : a = c := (List.cons.injEq _ _ _ _ ▸ h).1
    exact h1 (this ▸ List.mem_cons_self a l1t)
  | a :: l1t, b :: l3t, l2, l4, h1, h3, h => by
    simp only [List.cons_append, List.cons.injEq] at h
    have hrec := cons_middle_inj c l1t l3t l2 l4
      (fun hx => h1 (List.mem_cons_of_mem a hx))
      (fun hx => h3 (List.mem_cons_of_mem b hx)) h.2
    exact ⟨by rw [h.1, hrec.1], hrec.2⟩

theorem natStr_dash_inj (x y z w : Nat)
    (h : natStr x ++ "-" ++ natStr y = natStr z ++ "-" ++ natStr w) :
    x = z ∧ y = w := by
  have hdata := congrArg String.data h
  rw [String.data_append, String.data_append, String.data_append, String.data_append] at hdata
  have hdash : "-".data = ['-'] := rfl
  rw [hdash, List.append_assoc, List.append_assoc] at hdata
  simp only [List.singleton_append] at hdata
  have hsplit := cons_middle_inj '-' (natStr x).data (natStr z).data (natStr y).data
    (natStr w).data (fun hx => natStr_data_digits x '-' hx rfl)
    (fun hx => natStr_data_digits z '-' hx rfl) hdata
  exact ⟨natStr_injective x z (String.ext hsplit.1),
         natStr_injective y w (String.ext hsplit.2)⟩

theorem tikzEdgeKey_eq_iff (p q : Nat × Nat) :
    tikzEdgeKey p.1 p.2 = tikzEdgeKey q.1 q.2 ↔ unordPair p = unordPair q := by
  constructor
  · intro h
    have := natStr_dash_inj (min p.1 p.2) (max p.1 p.2) (min q.1 q.2) (max q.1 q.2) h
    simp only [unordPair, Prod.mk.injEq]
    exact this
  · intro h
    simp only [unordPair, Prod.mk.injEq] at h
    rw [tikzEdgeKey, tikzEdgeKey, h.1, h.2]

theorem tikzEdgeLoop_filterMap (m : List (Int × Nat)) (es : List GraphEdge)
    (seen : List String) :
    tikzEdgeLoop m seen es =
      (dedupFirstByAux (fun p : Nat × Nat => tikzEdgeKey p.1 p.2) seen
        (es.filterMap (resolveEdge m))).map (fun p => tikzDrawLine p.1 p.2) := by
  induction es generalizing seen with
  | nil => rfl
  | cons e rest ih =>
    simp only [tikzEdgeLoop, List.filterMap_cons]
    cases h1 : idxGet m e.source with
    | none =>
      simp only [resolveEdge, h1]
      exact ih seen
    | some si =>
      cases h2 : idxGet m e.target with
      | none =>
        simp only [resolveEdge, h1, h2]
        exact ih seen
      | some ti =>
        simp only [resolveEdge, h1, h2, dedupFirstByAux]
        by_cases hk : tikzEdgeKey si ti ∈ seen
        · simp only [hk, if_true]
          exact ih seen
        · simp only [hk, if_false, List.map_cons]
          rw [ih (tikzEdgeKey si ti :: seen)]

/-- C9: the `\draw` commands of `convertToTikZ` are exactly one per
unordered pair of resolved edge endpoints — an edge and its reverse are
drawn once, deduplicated by the unordered pair regardless of direction or
`wayId` — and every edge referencing a node id absent from the node list is
silently skipped. -/
theorem convertToTikZ_dedup_unordered (g : Graph) :
    tikzEdgeLines g =
      (dedupFirstBy unordPair (g.edges.filterMap (resolveEdge (idToIdx g.nodes)))).map
        (fun p => tikzDrawLine p.1 p.2) := by
  rw [tikzEdgeLines, tikzEdgeLoop_filterMap]
  rw [dedupFirstBy]
  have := dedupFirstByAux_congr (fun p : Nat × Nat => tikzEdgeKey p.1 p.2) unordPair
    tikzEdgeKey_eq_iff (g.edges.filterMap (resolveEdge (idToIdx g.nodes))) []
  simp only [List.map_nil] at this
  rw [this]
